import Mathlib

/-!
Verification of the chvm core (catalog builder, version comparator/resolver,
download pipeline, atomic installer, lock manager) against its specification.

The JavaScript source is shallowly embedded: strings are `List Char`, JS
`null`/`undefined` is `Option`, thrown errors are `Except`, and the
filesystem / network effects of each operation are made explicit as inputs
and outputs (an operation that may throw is represented by its outcome).
-/

namespace Chvm

/-! ### Version comparator (`compareVersions` in the mapping module)

`compareVersions(v1, v2)` splits both strings on `.`, converts every part
with `Number` coalesced by `|| 0`, and compares part by part, missing parts
counting as `0`.  A falsy argument (`null`, `undefined`, `""`) short-circuits:
`-1` when the first is falsy, else `1` when the second is. -/

/-- One step of `String.prototype.split`: prepend a character to the first
segment of an already-split tail. -/
def consHead (c : Char) : List (List Char) → List (List Char)
  | [] => [[c]]
  | p :: ps => (c :: p) :: ps

/-- `s.split('.')` on the character list of `s`; `"".split('.')` is `[""]`. -/
def splitDot : List Char → List (List Char)
  | [] => [[]]
  | c :: cs => if c = '.' then [] :: splitDot cs else consHead c (splitDot cs)

/-- Value of a decimal digit string (the code only ever feeds digit runs). -/
def natOfDigits (s : List Char) : Nat :=
  s.foldl (fun n c => n * 10 + (c.toNat - 48)) 0

/-- JS `Number(part) || 0`: a run of digits evaluates to its value, anything
that is not a plain digit run (so `Number` gives `NaN`, which is falsy) and
the empty string collapse to `0`. -/
def jsPartVal (s : List Char) : Nat :=
  if s ≠ [] ∧ s.all Char.isDigit then natOfDigits s else 0

/-- `String(v).split('.').map(Number)` with the `|| 0` coalescing applied. -/
def parseVersion (v : List Char) : List Nat :=
  (splitDot v).map jsPartVal

/-- The loop of `compareVersions`: compare corresponding parts left to right,
a missing part counting as `0`; the first strict difference decides. -/
def cmpParts : List Nat → List Nat → Int
  | [], [] => 0
  | x :: xs, [] => if 0 < x then 1 else cmpParts xs []
  | [], y :: ys => if 0 < y then -1 else cmpParts [] ys
  | x :: xs, y :: ys => if y < x then 1 else if x < y then -1 else cmpParts xs ys

/-- `compareVersions(v1, v2)`; `none` and `some []` are the falsy strings. -/
def compareVersions : Option (List Char) → Option (List Char) → Int
  | none, _ => -1
  | some [], _ => -1
  | some (_ :: _), none => 1
  | some (_ :: _), some [] => 1
  | some (c :: cs), some (d :: ds) => cmpParts (parseVersion (c :: cs)) (parseVersion (d :: ds))

/-- A valid dotted version string: nonempty, every `.`-separated component a
nonempty run of digits. -/
def validVersion (v : List Char) : Prop :=
  v ≠ [] ∧ ∀ p ∈ splitDot v, p ≠ [] ∧ ∀ c ∈ p, c.isDigit = true

instance (v : List Char) : Decidable (validVersion v) := by
  unfold validVersion; infer_instance

/-- `k` rounds of zero padding: the characters `".0"` repeated `k` times. -/
def padZeros : Nat → List Char
  | 0 => []
  | k + 1 => '.' :: '0' :: padZeros k

theorem cmpParts_self : ∀ l : List Nat, cmpParts l l = 0 := by
  intro l
  induction l with
  | nil => simp [cmpParts]
  | cons x xs ih => simp [cmpParts, ih]

theorem cmpParts_nil_left : ∀ b : List Nat, cmpParts [] b ≤ 0 := by
  intro b
  induction b with
  | nil => simp [cmpParts]
  | cons y ys ih =>
    simp only [cmpParts]
    split_ifs <;> omega

theorem cmpParts_antisymm_aux :
    ∀ (n : Nat) (a b : List Nat), a.length + b.length ≤ n →
      cmpParts a b = -cmpParts b a := by
  intro n
  induction n with
  | zero =>
    intro a b h
    match a, b with
    | [], [] => simp [cmpParts]
    | x :: xs, _ => simp at h
    | [], y :: ys => simp at h
  | succ n ih =>
    intro a b h
    match a, b with
    | [], [] => simp [cmpParts]
    | x :: xs, [] =>
      simp only [cmpParts]
      split_ifs
      · norm_num
      · rw [ih xs [] (by simp at h ⊢; omega)]
    | [], y :: ys =>
      simp only [cmpParts]
      split_ifs
      · norm_num
      · rw [ih [] ys (by simp at h ⊢; omega)]
    | x :: xs, y :: ys =>
      simp only [cmpParts]
      split_ifs <;> try omega
      rw [ih xs ys (by simp at h ⊢; omega)]

theorem cmpParts_antisymm (a b : List Nat) : cmpParts a b = -cmpParts b a :=
  cmpParts_antisymm_aux (a.length + b.length) a b le_rfl

theorem cmpParts_le_trans_aux :
    ∀ (n : Nat) (a b c : List Nat), a.length + b.length + c.length ≤ n →
      cmpParts a b ≤ 0 → cmpParts b c ≤ 0 → cmpParts a c ≤ 0 := by
  intro n
  induction n with
  | zero =>
    intro a b c h h1 h2
    match a, b, c with
    | [], [], [] => simp [cmpParts]
    | x :: xs, _, _ => simp at h
    | [], y :: ys, _ => simp at h
    | [], [], z :: zs => simp at h
  | succ n ih =>
    intro a b c h h1 h2
    match a, b, c with
    | [], _, _ => exact cmpParts_nil_left _
    | x :: xs, [], [] => exact h1
    | x :: xs, [], z :: zs =>
      simp only [cmpParts] at h1 h2 ⊢
      split_ifs at h1 h2 ⊢ <;> try omega
      exact ih xs [] zs (by simp at h ⊢; omega) h1 h2
    | x :: xs, y :: ys, [] =>
      simp only [cmpParts] at h1 h2 ⊢
      split_ifs at h1 h2 ⊢ <;> try omega
      exact ih xs ys [] (by simp at h ⊢; omega) h1 h2
    | x :: xs, y :: ys, z :: zs =>
      simp only [cmpParts] at h1 h2 ⊢
      split_ifs at h1 h2 ⊢ <;> try omega
      exact ih xs ys zs (by simp at h ⊢; omega) h1 h2

theorem cmpParts_le_trans {a b c : List Nat}
    (h1 : cmpParts a b ≤ 0) (h2 : cmpParts b c ≤ 0) : cmpParts a c ≤ 0 :=
  cmpParts_le_trans_aux (a.length + b.length + c.length) a b c le_rfl h1 h2

theorem cmpParts_nil_replicate : ∀ k : Nat, cmpParts [] (List.replicate k 0) = 0 := by
  intro k
  induction k with
  | zero => simp [cmpParts]
  | succ k ih => simpa [cmpParts, List.replicate] using ih

theorem cmpParts_pad_right : ∀ (l : List Nat) (k : Nat),
    cmpParts l (l ++ List.replicate k 0) = 0 := by
  intro l k
  induction l with
  | nil => simpa using cmpParts_nil_replicate k
  | cons x xs ih => simp [cmpParts, ih]

theorem splitDot_shape : ∀ l : List Char, ∃ p ps, splitDot l = p :: ps := by
  intro l
  induction l with
  | nil => exact ⟨[], [], rfl⟩
  | cons c cs ih =>
    obtain ⟨p, ps, hp⟩ := ih
    by_cases hc : c = '.'
    · exact ⟨[], splitDot cs, by simp [splitDot, hc]⟩
    · exact ⟨c :: p, ps, by simp [splitDot, hc, hp, consHead]⟩

theorem splitDot_append_dot : ∀ (a s : List Char),
    splitDot (a ++ '.' :: s) = splitDot a ++ splitDot s := by
  intro a s
  induction a with
  | nil => simp [splitDot]
  | cons c cs ih =>
    by_cases hc : c = '.'
    · simp [splitDot, hc, ih]
    · obtain ⟨p, ps, hp⟩ := splitDot_shape cs
      simp [splitDot, hc, ih, hp, consHead]

theorem splitDot_cons_dot (cs : List Char) : splitDot ('.' :: cs) = [] :: splitDot cs := by
  simp [splitDot]

theorem splitDot_cons_ne (c : Char) (cs : List Char) (h : ¬c = '.') :
    splitDot (c :: cs) = consHead c (splitDot cs) := by
  simp [splitDot, h]

theorem splitDot_zero_pad : ∀ k : Nat,
    splitDot ('0' :: padZeros k) = List.replicate (k + 1) ['0'] := by
  intro k
  induction k with
  | zero => rfl
  | succ k ih =>
    show splitDot ('0' :: '.' :: '0' :: padZeros k) = _
    rw [splitDot_cons_ne '0' _ (by decide), splitDot_cons_dot, ih]
    simp [consHead, List.replicate]

theorem parseVersion_pad : ∀ (v : List Char) (k : Nat),
    parseVersion (v ++ padZeros k) = parseVersion v ++ List.replicate k 0 := by
  intro v k
  match k with
  | 0 => simp [padZeros]
  | k + 1 =>
    show parseVersion (v ++ '.' :: '0' :: padZeros k) = _
    unfold parseVersion
    rw [splitDot_append_dot v ('0' :: padZeros k), splitDot_zero_pad k]
    rw [List.map_append, List.map_replicate]
    have h0 : jsPartVal ['0'] = 0 := by decide
    rw [h0]

theorem compareVersions_some_some (a b : List Char) (ha : a ≠ []) (hb : b ≠ []) :
    compareVersions (some a) (some b) = cmpParts (parseVersion a) (parseVersion b) := by
  match a, b with
  | c :: cs, d :: ds => rfl

theorem compareVersions_le_total (x y : Option (List Char)) :
    compareVersions x y ≤ 0 ∨ compareVersions y x ≤ 0 := by
  match x, y with
  | none, _ => left; simp [compareVersions]
  | some [], _ => left; simp [compareVersions]
  | some (c :: cs), none => right; simp [compareVersions]
  | some (c :: cs), some [] => right; simp [compareVersions]
  | some (c :: cs), some (d :: ds) =>
    simp only [compareVersions]
    have h := cmpParts_antisymm (parseVersion (c :: cs)) (parseVersion (d :: ds))
    omega

theorem compareVersions_le_trans (x y z : Option (List Char))
    (h1 : compareVersions x y ≤ 0) (h2 : compareVersions y z ≤ 0) :
    compareVersions x z ≤ 0 := by
  match x, y, z with
  | none, _, _ => simp [compareVersions]
  | some [], _, _ => simp [compareVersions]
  | some (c :: cs), none, _ =>
    exact absurd h1 (by simp [compareVersions])
  | some (c :: cs), some [], _ =>
    exact absurd h1 (by simp [compareVersions])
  | some (c :: cs), some (d :: ds), none =>
    exact absurd h2 (by simp [compareVersions])
  | some (c :: cs), some (d :: ds), some [] =>
    exact absurd h2 (by simp [compareVersions])
  | some (c :: cs), some (d :: ds), some (e :: es) =>
    simp only [compareVersions] at h1 h2 ⊢
    exact cmpParts_le_trans h1 h2

/-- C4: for all valid dotted version strings `a` and `b`, `compare(a,b)`
equals `-compare(b,a)`; and comparing a valid version string with itself or
with a zero-padded equivalent of itself (e.g. `"92.0"` versus `"92.0.0.0"`)
returns `0`. -/
theorem compareVersions_spec :
    (∀ a b : List Char, validVersion a → validVersion b →
        compareVersions (some a) (some b) = -compareVersions (some b) (some a))
  ∧ (∀ a : List Char, validVersion a → compareVersions (some a) (some a) = 0)
  ∧ (∀ (a : List Char) (k : Nat), validVersion a →
        compareVersions (some a) (some (a ++ padZeros k)) = 0
      ∧ compareVersions (some (a ++ padZeros k)) (some a) = 0) := by
  refine ⟨fun a b ha hb => ?_, fun a ha => ?_, fun a k ha => ?_⟩
  · rw [compareVersions_some_some a b ha.1 hb.1,
      compareVersions_some_some b a hb.1 ha.1]
    exact cmpParts_antisymm _ _
  · rw [compareVersions_some_some a a ha.1 ha.1]
    exact cmpParts_self _
  · have hp : a ++ padZeros k ≠ [] := fun h => ha.1 (List.append_eq_nil.mp h).1
    have h1 : compareVersions (some a) (some (a ++ padZeros k)) = 0 := by
      rw [compareVersions_some_some a _ ha.1 hp, parseVersion_pad]
      exact cmpParts_pad_right _ _
    refine ⟨h1, ?_⟩
    rw [compareVersions_some_some _ a hp ha.1]
    have h2 := cmpParts_antisymm (parseVersion (a ++ padZeros k)) (parseVersion a)
    rw [compareVersions_some_some a _ ha.1 hp] at h1
    omega

/-- Witness for C4 at the spec's own example: `"92.0"` versus `"92.0.0.0"`
(which is `"92.0" ++ padZeros 2`), plus antisymmetry at `"92"`, `"93"`. -/
theorem compareVersions_spec_witness :
    validVersion ['9', '2', '.', '0']
  ∧ compareVersions (some ['9', '2', '.', '0'])
      (some (['9', '2', '.', '0'] ++ padZeros 2)) = 0
  ∧ compareVersions (some (['9', '2', '.', '0'] ++ padZeros 2))
      (some ['9', '2', '.', '0']) = 0
  ∧ compareVersions (some ['9', '2']) (some ['9', '3'])
      = -compareVersions (some ['9', '3']) (some ['9', '2'])
  ∧ compareVersions (some ['9', '2']) (some ['9', '2']) = 0 := by
  have h3 := compareVersions_spec.2.2 ['9', '2', '.', '0'] 2 (by decide)
  have h1 := compareVersions_spec.1 ['9', '2'] ['9', '3'] (by decide) (by decide)
  have h2 := compareVersions_spec.2.1 ['9', '2'] (by decide)
  exact ⟨by decide, h3.1, h3.2, h1, h2⟩

/-! ### Catalog builder (`buildAvailableVersions` in the mapping module)

Revisions are listed from remote storage (digit strings captured by the
`Mac_Arm\/(\d+)\//` pattern); channel releases carry an optional
`chromium_main_branch_position`.  The builder keys a first-writer-wins map by
`String(position)`, matches each revision exactly and then at offsets
`+1, -1, …, +50, -50`, splits the result into versioned and unversioned
entries, sorts the two groups, and concatenates them. -/

/-- A revision record produced by the revision listing. -/
structure RevisionRecord where
  revision : List Char
  platform : List Char
deriving DecidableEq, Repr

/-- One release object from a channel fetch. -/
structure Release where
  version : List Char
  channel : List Char
  branchPosition : Option Nat
deriving DecidableEq, Repr

/-- The version/channel payload stored in the position map. -/
structure VersionInfo where
  version : List Char
  channel : List Char
deriving DecidableEq, Repr

/-- One entry of the built catalog. -/
structure CatalogEntry where
  version : Option (List Char)
  revision : List Char
  channel : Option (List Char)
  platform : List Char
  hasVersion : Bool
deriving DecidableEq, Repr

/-- The `'Mac_Arm'` platform literal. -/
def macArm : List Char := ['M', 'a', 'c', '_', 'A', 'r', 'm']

/-- JS `String(n)` for the natural number `n`. -/
def natToChars (n : Nat) : List Char := Nat.toDigits 10 n

/-- JS `parseInt` on the digit strings the builder feeds it (a revision is a
`\d+` capture, so it is a run of decimal digits; `parseInt` reads the leading
digit run). -/
def jsParseInt (s : List Char) : Nat := natOfDigits (s.takeWhile Char.isDigit)

/-- `positionMap.get(key)` over the association-list model of the JS `Map`. -/
def mapGet (m : List (List Char × VersionInfo)) (k : List Char) : Option VersionInfo :=
  (m.find? (fun kv => kv.1 == k)).map (·.2)

/-- Step 3 of the builder: `String(position)`-keyed map over all releases,
skipping falsy positions, first writer wins (`if (!positionMap.has(key))`). -/
def buildPositionMap (releases : List Release) : List (List Char × VersionInfo) :=
  releases.foldl
    (fun m r =>
      match r.branchPosition with
      | none => m
      | some p =>
        if p = 0 then m
        else
          let key := natToChars p
          if m.any (fun kv => kv.1 == key) then m
          else m ++ [(key, ⟨r.version, r.channel⟩)])
    []

/-- The `±offset` probe loop (`offset = 1` to `50`), trying
`String(revNum + offset)` then `String(revNum - offset)` at each distance. -/
def probeFrom (m : List (List Char × VersionInfo)) (revNum : Nat) :
    Nat → Nat → Option VersionInfo
  | _, 0 => none
  | offset, fuel + 1 =>
    match mapGet m (natToChars (revNum + offset)) with
    | some vi => some vi
    | none =>
      match mapGet m (natToChars (revNum - offset)) with
      | some vi => some vi
      | none => probeFrom m revNum (offset + 1) fuel

/-- Per-revision lookup: exact `positionMap.get(rev.revision)`, else the
`±50` probe around `parseInt(rev.revision)`. -/
def lookupVersionInfo (m : List (List Char × VersionInfo)) (rev : List Char) :
    Option VersionInfo :=
  match mapGet m rev with
  | some vi => some vi
  | none => probeFrom m (jsParseInt rev) 1 50

/-- The catalog entry pushed onto `versioned`. -/
def versionedEntry (r : RevisionRecord) (vi : VersionInfo) : CatalogEntry :=
  ⟨some vi.version, r.revision, some vi.channel, macArm, true⟩

/-- The catalog entry pushed onto `unversioned`. -/
def unversionedEntry (r : RevisionRecord) : CatalogEntry :=
  ⟨none, r.revision, none, macArm, false⟩

/-- Order of the versioned sort: the JS comparator is
`(a, b) => compareVersions(b.version, a.version)`, and `a` may precede `b`
exactly when the comparator is `≤ 0`. -/
def versionLe (a b : CatalogEntry) : Prop :=
  compareVersions b.version a.version ≤ 0

instance : DecidableRel versionLe := fun a b => by
  unfold versionLe; infer_instance

/-- Order of the unversioned sort: the comparator is
`(a, b) => parseInt(b.revision) - parseInt(a.revision)`. -/
def revLe (a b : CatalogEntry) : Prop :=
  jsParseInt b.revision ≤ jsParseInt a.revision

instance : DecidableRel revLe := fun a b => by
  unfold revLe; infer_instance

instance : IsTotal CatalogEntry versionLe :=
  ⟨fun a b => compareVersions_le_total b.version a.version⟩

instance : IsTrans CatalogEntry versionLe :=
  ⟨fun a b c h1 h2 => compareVersions_le_trans c.version b.version a.version h2 h1⟩

instance : IsTotal CatalogEntry revLe :=
  ⟨fun a b => Nat.le_total (jsParseInt b.revision) (jsParseInt a.revision)⟩

instance : IsTrans CatalogEntry revLe :=
  ⟨fun _ _ _ h1 h2 => Nat.le_trans h2 h1⟩

/-- The `versioned` list in revision order, before sorting. -/
def versionedOf (revisions : List RevisionRecord) (releases : List Release) :
    List CatalogEntry :=
  revisions.filterMap fun r =>
    (lookupVersionInfo (buildPositionMap releases) r.revision).map (versionedEntry r)

/-- The `unversioned` list in revision order, before sorting. -/
def unversionedOf (revisions : List RevisionRecord) (releases : List Release) :
    List CatalogEntry :=
  (revisions.filter fun r =>
    (lookupVersionInfo (buildPositionMap releases) r.revision).isNone).map unversionedEntry

/-- The pure core of `buildAvailableVersions`, taking the already-fetched
revision listing and the concatenated channel releases: sort `versioned`
descending by version, sort `unversioned` descending by numeric revision,
return `[...versioned, ...unversioned]`.  The JS `Array.prototype.sort` is
modelled by insertion sort (any comparator-respecting sorted permutation). -/
def buildCore (revisions : List RevisionRecord) (releases : List Release) :
    List CatalogEntry :=
  List.insertionSort versionLe (versionedOf revisions releases)
    ++ List.insertionSort revLe (unversionedOf revisions releases)

/-- `.catch(() => [])` applied to the outcome of one channel fetch. -/
def catchEmpty {ε : Type} : Except ε (List Release) → List Release
  | .ok l => l
  | .error _ => []

/-- `buildAvailableVersions`, parameterized by the outcomes of its five
fetches: the revision listing is awaited with no handler (a failure
propagates), while each of the four channel fetches carries
`.catch(() => [])`. -/
def buildAvailableVersions {ε : Type} (revFetch : Except ε (List RevisionRecord))
    (stable beta dev canary : Except ε (List Release)) :
    Except ε (List CatalogEntry) :=
  match revFetch with
  | .error e => .error e
  | .ok revisions =>
    .ok (buildCore revisions
      (catchEmpty stable ++ catchEmpty beta ++ catchEmpty dev ++ catchEmpty canary))

/-- C3: every built catalog is a versioned block followed by an unversioned
block; the versioned block is descending under the version comparator, the
unversioned block descending by revision parsed as an integer. -/
theorem buildCatalog_ordering (revisions : List RevisionRecord) (releases : List Release) :
    ∃ vs us, buildCore revisions releases = vs ++ us
      ∧ (∀ e ∈ vs, e.hasVersion = true)
      ∧ (∀ e ∈ us, e.hasVersion = false)
      ∧ List.Sorted versionLe vs
      ∧ List.Sorted revLe us := by
  refine ⟨List.insertionSort versionLe (versionedOf revisions releases),
    List.insertionSort revLe (unversionedOf revisions releases), rfl, ?_, ?_,
    List.sorted_insertionSort versionLe _, List.sorted_insertionSort revLe _⟩
  · intro e he
    rw [(List.perm_insertionSort versionLe _).mem_iff] at he
    rcases List.mem_filterMap.mp he with ⟨r, _, hm⟩
    rcases Option.map_eq_some'.mp hm with ⟨vi, _, he'⟩
    rw [← he']
    rfl
  · intro e he
    rw [(List.perm_insertionSort revLe _).mem_iff] at he
    rcases List.mem_map.mp he with ⟨r, _, he'⟩
    rw [← he']
    rfl

/-- C8: a failing revision-listing fetch aborts the whole build with that
error; the build otherwise succeeds whatever the channel outcomes, and a
failing channel fetch contributes exactly the zero releases that an empty
successful fetch would. -/
theorem buildAvailableVersions_errors {ε : Type} :
    (∀ (e : ε) s b d c, buildAvailableVersions (.error e) s b d c = .error e)
  ∧ (∀ revs (s b d c : Except ε (List Release)),
      buildAvailableVersions (.ok revs) s b d c
        = .ok (buildCore revs
            (catchEmpty s ++ catchEmpty b ++ catchEmpty d ++ catchEmpty c)))
  ∧ (∀ revs (e1 : ε) b d c,
      buildAvailableVersions (.ok revs) (.error e1) b d c
        = buildAvailableVersions (.ok revs) (.ok []) b d c)
  ∧ (∀ revs s (e2 : ε) d c,
      buildAvailableVersions (.ok revs) s (.error e2) d c
        = buildAvailableVersions (.ok revs) s (.ok []) d c)
  ∧ (∀ revs s b (e3 : ε) c,
      buildAvailableVersions (.ok revs) s b (.error e3) c
        = buildAvailableVersions (.ok revs) s b (.ok []) c)
  ∧ (∀ revs s b d (e4 : ε),
      buildAvailableVersions (.ok revs) s b d (.error e4)
        = buildAvailableVersions (.ok revs) s b d (.ok [])) :=
  ⟨fun _ _ _ _ _ => rfl, fun _ _ _ _ _ => rfl, fun _ _ _ _ _ => rfl,
    fun _ _ _ _ _ => rfl, fun _ _ _ _ _ => rfl, fun _ _ _ _ _ => rfl⟩

/-! ### Version resolver (`resolveVersion` in the mapping module) -/

/-- The `'latest'` keyword. -/
def latestQ : List Char := ['l', 'a', 't', 'e', 's', 't']

/-- The `'oldest'` keyword. -/
def oldestQ : List Char := ['o', 'l', 'd', 'e', 's', 't']

/-- `item.version === query`. -/
def verEq (q : List Char) (i : CatalogEntry) : Bool := i.version == some q

/-- `item.revision === query`. -/
def revEq (q : List Char) (i : CatalogEntry) : Bool := i.revision == q

/-- `item.version && item.version.startsWith(query)` (a `null` or empty
version is falsy and never matches). -/
def versionStarts (q : List Char) (i : CatalogEntry) : Bool :=
  match i.version with
  | none => false
  | some [] => false
  | some (c :: cs) => q.isPrefixOf (c :: cs)

/-- `resolveVersion(query, available)`. -/
def resolveVersion (query : List Char) (available : List CatalogEntry) :
    Option CatalogEntry :=
  if available.length = 0 then none
  else if query = latestQ then
    let versioned := available.filter fun i => i.hasVersion
    if 0 < versioned.length then versioned[0]? else available[0]?
  else if query = oldestQ then available[available.length - 1]?
  else
    match available.find? (verEq query) with
    | some m => some m
    | none =>
      match available.find? (revEq query) with
      | some m => some m
      | none => available.find? (versionStarts query)

theorem filter_zero_eq_find? (p : α → Bool) : ∀ l : List α, (l.filter p)[0]? = l.find? p := by
  intro l
  induction l with
  | nil => rfl
  | cons x xs ih =>
    by_cases h : p x <;> simp [List.filter_cons, List.find?_cons, h, ih]

theorem getElem?_pred_length_eq_getLast? : ∀ l : List α, l[l.length - 1]? = l.getLast? := by
  intro l
  match l with
  | [] => rfl
  | [x] => rfl
  | x :: y :: ys =>
    rw [List.getLast?_cons_cons]
    have hlen : (x :: y :: ys).length - 1 = (y :: ys).length - 1 + 1 := by simp
    rw [hlen, List.getElem?_cons_succ]
    exact getElem?_pred_length_eq_getLast? (y :: ys)

/-- C6: `resolve('latest', catalog)` is the first `hasVersion` entry when one
exists, else the first entry overall, and `none` on the empty catalog;
`resolve('oldest', catalog)` is the last entry of the full catalog. -/
theorem resolveVersion_keywords :
    (resolveVersion latestQ [] = none)
  ∧ (∀ (cat : List CatalogEntry) e, cat.find? (fun i => i.hasVersion) = some e →
      resolveVersion latestQ cat = some e)
  ∧ (∀ cat : List CatalogEntry, cat ≠ [] →
      cat.find? (fun i => i.hasVersion) = none →
      resolveVersion latestQ cat = cat[0]?)
  ∧ (∀ cat : List CatalogEntry, resolveVersion oldestQ cat = cat.getLast?) := by
  refine ⟨rfl, fun cat e hf => ?_, fun cat hne hf => ?_, fun cat => ?_⟩
  · match cat with
    | [] => simp at hf
    | x :: xs =>
      have hfl : ((x :: xs).filter (fun i => i.hasVersion))[0]? = some e := by
        rw [filter_zero_eq_find? _ (x :: xs)]; exact hf
      have hpos : 0 < ((x :: xs).filter (fun i => i.hasVersion)).length := by
        match hm : (x :: xs).filter (fun i => i.hasVersion) with
        | [] => rw [hm] at hfl; simp at hfl
        | _ :: _ => rw [hm]; simp
      simp only [resolveVersion, if_neg (by simp : ¬(x :: xs).length = 0),
        eq_self_iff_true, if_true, if_pos hpos]
      exact hfl
  · match cat with
    | [] => exact absurd rfl hne
    | x :: xs =>
      have hfl : ((x :: xs).filter (fun i => i.hasVersion))[0]? = none := by
        rw [filter_zero_eq_find? _ (x :: xs)]; exact hf
      have hzero : ¬0 < ((x :: xs).filter (fun i => i.hasVersion)).length := by
        match hm : (x :: xs).filter (fun i => i.hasVersion) with
        | [] => rw [hm]; simp
        | _ :: _ => rw [hm] at hfl; simp at hfl
      simp only [resolveVersion, if_neg (by simp : ¬(x :: xs).length = 0),
        eq_self_iff_true, if_true, if_neg hzero]
  · match cat with
    | [] => rfl
    | x :: xs =>
      simp only [resolveVersion, if_neg (by simp : ¬(x :: xs).length = 0),
        if_neg (by decide : ¬oldestQ = latestQ), eq_self_iff_true, if_true]
      exact getElem?_pred_length_eq_getLast? (x :: xs)

/-- Witness for C6 on a two-entry catalog whose first entry is unversioned. -/
theorem resolveVersion_keywords_witness :
    resolveVersion latestQ
        [unversionedEntry ⟨['2'], macArm⟩, versionedEntry ⟨['1'], macArm⟩ ⟨['9', '0'], ['S']⟩]
      = some (versionedEntry ⟨['1'], macArm⟩ ⟨['9', '0'], ['S']⟩) :=
  resolveVersion_keywords.2.1
    [unversionedEntry ⟨['2'], macArm⟩, versionedEntry ⟨['1'], macArm⟩ ⟨['9', '0'], ['S']⟩]
    (versionedEntry ⟨['1'], macArm⟩ ⟨['9', '0'], ['S']⟩) (by decide)

/-- The catalog of the spec's concrete resolver scenario. -/
def entry93 : CatalogEntry :=
  ⟨some ['9', '3', '.', '0', '.', '4', '5', '7', '7', '.', '8', '2'],
    ['9', '1', '1', '5', '1', '5'], none, macArm, true⟩

/-- Second entry of the spec's concrete resolver scenario. -/
def entry92 : CatalogEntry :=
  ⟨some ['9', '2', '.', '0', '.', '4', '5', '1', '5', '.', '1', '5', '9'],
    ['8', '8', '2', '3', '8', '7'], none, macArm, true⟩

/-- C7: a non-keyword query is resolved by exact version match, then exact
revision match, then first version-prefix match in catalog order, else
`none`; the empty catalog resolves nothing; concretely `resolve('92')` on the
`[93.0.4577.82, 92.0.4515.159]` catalog is the `92.0.4515.159` entry and
`resolve('999')` is `none`. -/
theorem resolveVersion_search :
    (∀ q, resolveVersion q [] = none)
  ∧ (∀ q (cat : List CatalogEntry) e, q ≠ latestQ → q ≠ oldestQ →
      cat.find? (verEq q) = some e → resolveVersion q cat = some e)
  ∧ (∀ q (cat : List CatalogEntry) e, q ≠ latestQ → q ≠ oldestQ →
      cat.find? (verEq q) = none → cat.find? (revEq q) = some e →
      resolveVersion q cat = some e)
  ∧ (∀ q (cat : List CatalogEntry) e, q ≠ latestQ → q ≠ oldestQ →
      cat.find? (verEq q) = none → cat.find? (revEq q) = none →
      cat.find? (versionStarts q) = some e → resolveVersion q cat = some e)
  ∧ (∀ q (cat : List CatalogEntry), q ≠ latestQ → q ≠ oldestQ →
      cat.find? (verEq q) = none → cat.find? (revEq q) = none →
      cat.find? (versionStarts q) = none → resolveVersion q cat = none)
  ∧ (resolveVersion ['9', '2'] [entry93, entry92] = some entry92)
  ∧ (resolveVersion ['9', '9', '9'] [entry93, entry92] = none) := by
  refine ⟨fun q => rfl, fun q cat e h1 h2 hv => ?_, fun q cat e h1 h2 hv hr => ?_,
    fun q cat e h1 h2 hv hr hp => ?_, fun q cat h1 h2 hv hr hp => ?_, by decide, by decide⟩
  · match cat with
    | [] => simp at hv
    | x :: xs =>
      simp only [resolveVersion, if_neg (by simp : ¬(x :: xs).length = 0),
        if_neg h1, if_neg h2, hv]
  · match cat with
    | [] => simp at hr
    | x :: xs =>
      simp only [resolveVersion, if_neg (by simp : ¬(x :: xs).length = 0),
        if_neg h1, if_neg h2, hv, hr]
  · match cat with
    | [] => simp at hp
    | x :: xs =>
      simp only [resolveVersion, if_neg (by simp : ¬(x :: xs).length = 0),
        if_neg h1, if_neg h2, hv, hr, hp]
  · match cat with
    | [] => rfl
    | x :: xs =>
      simp only [resolveVersion, if_neg (by simp : ¬(x :: xs).length = 0),
        if_neg h1, if_neg h2, hv, hr, hp]

/-- Witness for C7: the prefix stage found `entry92` for query `"92"`, and
the query `"999"` falls through all three stages. -/
theorem resolveVersion_search_witness :
    resolveVersion ['9', '2'] [entry93, entry92] = some entry92
  ∧ resolveVersion ['9', '9', '9'] [entry93, entry92] = none :=
  ⟨resolveVersion_search.2.2.2.1 ['9', '2'] [entry93, entry92] entry92
      (by decide) (by decide) (by decide) (by decide) (by decide),
    resolveVersion_search.2.2.2.2.1 ['9', '9', '9'] [entry93, entry92]
      (by decide) (by decide) (by decide) (by decide) (by decide)⟩

/-! ### Download pipeline (`retryFetch`, `validateDownload` in the downloader)

`retryFetch(fetchFn, {retries, delay, backoff})` loops `attempt = 0..retries`,
returning the first success, remembering the last error, and sleeping
`delay * backoff ** attempt` after each non-final failure; after the loop it
throws the last error.  `fetchFn` is modelled by the outcome of each of its
invocations in order; the embedding also returns the number of invocations
made and the list of sleeps performed. -/

/-- The retry loop from `attempt` with `fuel` further attempts allowed after
the current one: result, invocation count, sleep durations. -/
def retryGo (f : Nat → Except ε α) (delay backoff attempt : Nat) :
    Nat → Except ε α × Nat × List Nat
  | 0 => (f attempt, 1, [])
  | fuel + 1 =>
    match f attempt with
    | .ok a => (.ok a, 1, [])
    | .error _ =>
      let r := retryGo f delay backoff (attempt + 1) fuel
      (r.1, r.2.1 + 1, delay * backoff ^ attempt :: r.2.2)

/-- `retryFetch` with option values `retries`, `delay`, `backoff`. -/
def retryFetch (f : Nat → Except ε α) (retries delay backoff : Nat) :
    Except ε α × Nat × List Nat :=
  retryGo f delay backoff 0 retries

theorem retryGo_count_le (f : Nat → Except ε α) (delay backoff : Nat) :
    ∀ (fuel attempt : Nat), (retryGo f delay backoff attempt fuel).2.1 ≤ fuel + 1 := by
  intro fuel
  induction fuel with
  | zero => intro attempt; simp [retryGo]
  | succ n ih =>
    intro attempt
    simp only [retryGo]
    match f attempt with
    | .ok a => simp
    | .error e =>
      have := ih (attempt + 1)
      simp only
      omega

theorem retryGo_first_success (f : Nat → Except ε α) (delay backoff : Nat) :
    ∀ (j attempt fuel : Nat) (a : α), j ≤ fuel →
      (∀ i, i < j → ∃ er, f (attempt + i) = .error er) → f (attempt + j) = .ok a →
      retryGo f delay backoff attempt fuel
        = (.ok a, j + 1, (List.range j).map fun i => delay * backoff ^ (attempt + i)) := by
  intro j
  induction j with
  | zero =>
    intro attempt fuel a _ _ hok
    match fuel with
    | 0 => simp only [retryGo]; rw [show attempt + 0 = attempt from rfl] at hok; rw [hok]; rfl
    | n + 1 =>
      simp only [retryGo]
      rw [show attempt + 0 = attempt from rfl] at hok
      rw [hok]
      rfl
  | succ j ih =>
    intro attempt fuel a hj hfail hok
    match fuel with
    | 0 => omega
    | n + 1 =>
      obtain ⟨er, her⟩ := hfail 0 (Nat.succ_pos j)
      rw [show attempt + 0 = attempt from rfl] at her
      simp only [retryGo, her]
      have hrec := ih (attempt + 1) n a (by omega)
        (fun i hi => by
          have := hfail (i + 1) (by omega)
          rwa [show attempt + (i + 1) = attempt + 1 + i by omega] at this)
        (by rwa [show attempt + 1 + j = attempt + (j + 1) by omega])
      rw [hrec]
      have hmap : (List.range (j + 1)).map (fun i => delay * backoff ^ (attempt + i))
          = delay * backoff ^ attempt
            :: (List.range j).map fun i => delay * backoff ^ (attempt + 1 + i) := by
        rw [List.range_succ_eq_map, List.map_cons, List.map_map]
        refine congrArg₂ _ (by rw [Nat.add_zero]) (congrArg₂ _ ?_ rfl)
        funext i
        show delay * backoff ^ (attempt + (i + 1)) = delay * backoff ^ (attempt + 1 + i)
        rw [show attempt + (i + 1) = attempt + 1 + i by omega]
      rw [hmap]

theorem retryGo_all_fail (f : Nat → Except ε α) (delay backoff : Nat) :
    ∀ (fuel attempt : Nat), (∀ i, i ≤ fuel → ∃ er, f (attempt + i) = .error er) →
      (retryGo f delay backoff attempt fuel).1 = f (attempt + fuel) := by
  intro fuel
  induction fuel with
  | zero => intro attempt _; simp [retryGo]
  | succ n ih =>
    intro attempt hfail
    obtain ⟨er, her⟩ := hfail 0 (Nat.zero_le _)
    rw [show attempt + 0 = attempt from rfl] at her
    simp only [retryGo, her]
    have := ih (attempt + 1) (fun i hi => by
      have := hfail (i + 1) (by omega)
      rwa [show attempt + (i + 1) = attempt + 1 + i by omega] at this)
    rw [this, show attempt + 1 + n = attempt + (n + 1) by omega]

/-- C5: the retry wrapper invokes the operation at most `retries + 1` times;
it stops at the first success, having slept `delay * backoff ^ attempt` after
each failed attempt (0-indexed); when every attempt fails it rethrows the
error of the last attempt; and an operation failing twice then succeeding,
run with `retries = 3`, yields the success after exactly 3 invocations with
sleeps `delay * backoff ^ 0` and `delay * backoff ^ 1`. -/
theorem retryFetch_spec {ε α : Type} :
    (∀ (f : Nat → Except ε α) retries delay backoff,
      (retryFetch f retries delay backoff).2.1 ≤ retries + 1)
  ∧ (∀ (f : Nat → Except ε α) retries delay backoff j a, j ≤ retries →
      (∀ i, i < j → ∃ er, f i = .error er) → f j = .ok a →
      retryFetch f retries delay backoff
        = (.ok a, j + 1, (List.range j).map fun i => delay * backoff ^ i))
  ∧ (∀ (f : Nat → Except ε α) retries delay backoff e,
      (∀ i, i ≤ retries → ∃ er, f i = .error er) → f retries = .error e →
      (retryFetch f retries delay backoff).1 = .error e)
  ∧ (∀ (a : α) (e : ε) delay backoff,
      retryFetch (fun i => if i < 2 then .error e else .ok a) 3 delay backoff
        = (.ok a, 3, [delay * backoff ^ 0, delay * backoff ^ 1])) := by
  refine ⟨fun f retries delay backoff => retryGo_count_le f delay backoff retries 0,
    fun f retries delay backoff j a hj hfail hok => ?_,
    fun f retries delay backoff e hfail hlast => ?_,
    fun a e delay backoff => ?_⟩
  · have := retryGo_first_success f delay backoff j 0 retries a hj
      (fun i hi => by simpa using hfail i hi) (by simpa using hok)
    simpa [retryFetch] using this
  · have := retryGo_all_fail f delay backoff retries 0
      (fun i hi => by simpa using hfail i hi)
    rw [retryFetch, this]
    simpa using hlast
  · have h2 := retryGo_first_success (fun i => if i < 2 then Except.error e else Except.ok a)
      delay backoff 2 0 3 a (by omega)
      (fun i hi => ⟨e, by simp [Nat.zero_add, if_pos hi]⟩)
      (by simp)
    rw [show List.range 2 = [0, 1] from rfl] at h2
    simpa [retryFetch] using h2

/-- Witness for C5: the fails-twice-then-succeeds scenario at
`retries = 3`, `delay = 100`, `backoff = 2`. -/
theorem retryFetch_spec_witness :
    retryFetch (fun i => if i < 2 then Except.error 7 else Except.ok 42) 3 100 2
      = (Except.ok 42, 3, [100, 200]) := by
  have h := (retryFetch_spec (ε := Nat) (α := Nat)).2.1
    (fun i => if i < 2 then Except.error 7 else Except.ok 42) 3 100 2 2 42
    (by omega) (fun i hi => ⟨7, by simp [if_pos hi]⟩) (by simp)
  simpa using h

/-! ### Download validation (`validateDownload` in the downloader)

The file system is abstracted to the size of the file at the requested path
(`none` when `existsSync` is false).  `expectedSize` is the option value, with
JS truthiness: absent/null (`none`) and `0` are falsy and skip the check. -/

/-- The value `validateDownload` resolves with. -/
structure DlResult where
  valid : Bool
  size : Nat
deriving DecidableEq, Repr

/-- The errors `validateDownload` can throw. -/
inductive DlError where
  | fileMissing : DlError
  | sizeMismatch : Nat → Nat → DlError
deriving DecidableEq, Repr

/-- `validateDownload(filePath, {expectedSize})`: throws when the file does
not exist; throws a size-mismatch error when `expectedSize` is truthy and
differs from the on-disk size; otherwise resolves `{valid: true, size}`. -/
def validateDownload (fileSize : Option Nat) (expectedSize : Option Nat) :
    Except DlError DlResult :=
  match fileSize with
  | none => .error .fileMissing
  | some sz =>
    match expectedSize with
    | none => .ok ⟨true, sz⟩
    | some exp =>
      if exp ≠ 0 ∧ sz ≠ exp then .error (.sizeMismatch exp sz)
      else .ok ⟨true, sz⟩

/-- C1 (code bug): the claim and the module's own unit tests say a size
mismatch yields `false`, but `validateDownload` throws: for an existing
12-byte file checked against `expectedSize = 99999` the code throws the
size-mismatch error instead of returning a boolean. -/
theorem validateDownload_mismatch_raises :
    validateDownload (some 12) (some 99999) = .error (.sizeMismatch 99999 12)
  ∧ validateDownload (some 12) (some 12) = .ok ⟨true, 12⟩ := by
  constructor
  · simp [validateDownload]
  · simp [validateDownload]

/-- C10: with `expectedSize` absent/null (`none`) or `0` (both JS-falsy), the
size comparison is skipped and an existing file of any size validates. -/
theorem validateDownload_skip (sz : Nat) (expectedSize : Option Nat)
    (h : expectedSize = none ∨ expectedSize = some 0) :
    validateDownload (some sz) expectedSize = .ok ⟨true, sz⟩ := by
  rcases h with h | h <;> subst h <;> simp [validateDownload]

/-- Witness for C10: a 5-byte file validates against `expectedSize = 0` and
against an absent `expectedSize`. -/
theorem validateDownload_skip_witness :
    validateDownload (some 5) (some 0) = .ok ⟨true, 5⟩
  ∧ validateDownload (some 5) none = .ok ⟨true, 5⟩ :=
  ⟨validateDownload_skip 5 (some 0) (Or.inr rfl),
    validateDownload_skip 5 none (Or.inl rfl)⟩

/-! ### Atomic installer (`atomicInstall`, `moveDirectory` in the installer)

The filesystem is abstracted to the content at `finalPath` (`Option κ`) and
whether the temporary directory still exists.  The population step and each
primitive of `moveDirectory` (rename; on rename failure, recursive copy then
removal of the source) is parameterized by its outcome; `fs.mkdir` of the
fresh temporary directory and the `force: true` cleanup are modelled as
succeeding.  A failed `fs.rename` is atomic and leaves the destination
untouched, but Node's recursive `fs.cp` has no rollback: a mid-copy failure
may leave a partial tree at the destination, so the model lets a failing copy
leave an arbitrary, unconstrained state there (`cpLeft`). -/

/-- Outcomes of the three filesystem primitives inside `moveDirectory`
(`none` in an error field means the call succeeds).  `cpLeft` is the state
the destination is left in when the recursive copy fails partway: it is
chosen by the environment, not by the code, since `fs.cp` makes no
guarantee about it. -/
structure MoveEnv (ε κ : Type) where
  renameErr : Option ε
  cpErr : Option ε
  cpLeft : Option κ
  rmErr : Option ε

/-- `moveDirectory(source, dest)`: try `fs.rename`; if it fails (the rename
error is swallowed), `fs.cp(recursive)` then `fs.rm(source)`.  Returns the
content now at `dest` together with the error thrown, if any.  A failing
copy leaves the unconstrained `cpLeft` at `dest`. -/
def moveDirectory {ε κ : Type} (env : MoveEnv ε κ) (src : κ) (_dest : Option κ) :
    Option κ × Option ε :=
  match env.renameErr with
  | none => (some src, none)
  | some _ =>
    match env.cpErr with
    | some e => (env.cpLeft, some e)
    | none =>
      match env.rmErr with
      | some e => (some src, some e)
      | none => (some src, none)

/-- The inputs of one `atomicInstall` run: the outcome of
`installFn(tmpDir)` (its produced content, or the error it throws) and the
outcomes of the move primitives. -/
structure InstallEnv (ε κ : Type) where
  popResult : Except ε κ
  move : MoveEnv ε κ

/-- What an `atomicInstall` run left behind. -/
structure InstallOutcome (ε κ : Type) where
  result : Except ε Unit
  tmpExists : Bool
  final : Option κ

/-- `atomicInstall(installFn, finalPath, chvmHome)`: make the temp directory,
run `installFn`, `moveDirectory` the produced path onto `finalPath`, clean the
temp directory; on any error, clean the temp directory if it exists and
rethrow the caught error. -/
def atomicInstall {ε κ : Type} (env : InstallEnv ε κ) (finalBefore : Option κ) :
    InstallOutcome ε κ :=
  match env.popResult with
  | .error e => ⟨.error e, false, finalBefore⟩
  | .ok content =>
    match moveDirectory env.move content finalBefore with
    | (finalAfter, some e) => ⟨.error e, false, finalAfter⟩
    | (finalAfter, none) => ⟨.ok (), false, finalAfter⟩

/-- Counterexample to C2 as stated: with no previous install
(`finalBefore = none`), a run whose rename fails (error `5`), whose fallback
copy succeeds, and whose removal of the copied source fails (error `7`)
rethrows the removal error, yet `finalPath` now holds the new content `1`
instead of being absent as it was before the attempt. -/
theorem atomicInstall_finalPath_counterexample :
    (atomicInstall (ε := Nat) (κ := Nat) ⟨.ok 1, ⟨some 5, none, none, some 7⟩⟩ none).result
        = .error 7
  ∧ (atomicInstall (ε := Nat) (κ := Nat) ⟨.ok 1, ⟨some 5, none, none, some 7⟩⟩ none).final
        = some 1
  ∧ ¬(atomicInstall (ε := Nat) (κ := Nat) ⟨.ok 1, ⟨some 5, none, none, some 7⟩⟩ none).final
        = none :=
  ⟨rfl, rfl, fun h => Option.noConfusion h⟩

/-- C2 (amended): whenever the population step or the publish (move) step
throws, the temporary directory is gone afterward and the caught error is
rethrown unchanged.  `finalPath` is exactly as it was before the attempt when
the population step threw — the code does not touch `finalPath` before the
move — but a publish failure carries no `finalPath` guarantee: the fallback
copy has no rollback, so a failing copy may have left any partial state there
and a failing source removal leaves the fully copied new content there. -/
theorem atomicInstall_cleanup_spec {ε κ : Type} (env : InstallEnv ε κ)
    (finalBefore : Option κ) :
    (∀ e, env.popResult = .error e →
      atomicInstall env finalBefore = ⟨.error e, false, finalBefore⟩)
  ∧ (∀ c e1 e2, env.popResult = .ok c → env.move.renameErr = some e1 →
      env.move.cpErr = some e2 →
      (atomicInstall env finalBefore).result = .error e2
        ∧ (atomicInstall env finalBefore).tmpExists = false)
  ∧ (∀ c e1 e2, env.popResult = .ok c → env.move.renameErr = some e1 →
      env.move.cpErr = none → env.move.rmErr = some e2 →
      (atomicInstall env finalBefore).result = .error e2
        ∧ (atomicInstall env finalBefore).tmpExists = false) := by
  obtain ⟨pop, ⟨ren, cp, left, rm⟩⟩ := env
  refine ⟨fun e hp => ?_, fun c e1 e2 hp hr hc => ?_, fun c e1 e2 hp hr hc hm => ?_⟩
  · subst hp; rfl
  · subst hp; subst hr; subst hc; exact ⟨rfl, rfl⟩
  · subst hp; subst hr; subst hc; subst hm; exact ⟨rfl, rfl⟩

/-- Witness for C2 (amended), one concrete run per conjunct: a failing
population step, a fallback copy failing after leaving a partial state, and a
failing source removal. -/
theorem atomicInstall_cleanup_spec_witness :
    atomicInstall (ε := Nat) (κ := Nat) ⟨.error 3, ⟨none, none, none, none⟩⟩ (some 9)
        = ⟨.error 3, false, some 9⟩
  ∧ ((atomicInstall (ε := Nat) (κ := Nat)
          ⟨.ok 1, ⟨some 5, some 6, some 4, none⟩⟩ (some 9)).result = .error 6
      ∧ (atomicInstall (ε := Nat) (κ := Nat)
          ⟨.ok 1, ⟨some 5, some 6, some 4, none⟩⟩ (some 9)).tmpExists = false)
  ∧ ((atomicInstall (ε := Nat) (κ := Nat)
          ⟨.ok 1, ⟨some 5, none, none, some 7⟩⟩ (some 9)).result = .error 7
      ∧ (atomicInstall (ε := Nat) (κ := Nat)
          ⟨.ok 1, ⟨some 5, none, none, some 7⟩⟩ (some 9)).tmpExists = false) :=
  ⟨(atomicInstall_cleanup_spec ⟨.error 3, ⟨none, none, none, none⟩⟩ (some 9)).1 3 rfl,
    (atomicInstall_cleanup_spec ⟨.ok 1, ⟨some 5, some 6, some 4, none⟩⟩ (some 9)).2.1 1 5 6
      rfl rfl rfl,
    (atomicInstall_cleanup_spec ⟨.ok 1, ⟨some 5, none, none, some 7⟩⟩ (some 9)).2.2 1 5 7
      rfl rfl rfl rfl⟩

/-! ### Lock manager (`withLock` in the lock module)

`withLock(chvmHome, fn)` awaits `acquireLock`, then runs `fn` inside
`try { return await fn() } finally { await releaseLock(release) }`.  The
events on the lock are recorded as a trace; `fn` is modelled by its outcome. -/

/-- Observable lock-manager events during `withLock`. -/
inductive LockEvent where
  | acquired : LockEvent
  | ran : LockEvent
  | released : LockEvent
deriving DecidableEq, Repr

/-- `withLock`, parameterized by the outcome of `acquireLock` and of `fn`:
returns `fn`'s result (or rethrows its error) together with the trace of lock
events.  When acquisition itself fails, `fn` never runs and there is nothing
to release. -/
def withLock {ε α : Type} (acq : Except ε Unit) (fn : Except ε α) :
    Except ε α × List LockEvent :=
  match acq with
  | .error e => (.error e, [])
  | .ok _ =>
    match fn with
    | .ok a => (.ok a, [.acquired, .ran, .released])
    | .error e => (.error e, [.acquired, .ran, .released])

/-- C9: once the lock is acquired, `withLock` runs `fn` and releases the lock
on every exit path — the trace is acquire, run, release whether `fn` returns
or throws, the result of a normal return is passed through, and a thrown
error propagates unchanged after the release. -/
theorem withLock_scoped {ε α : Type} (acq : Except ε Unit) (fn : Except ε α)
    (h : acq = .ok ()) :
    (withLock acq fn).1 = fn
  ∧ (withLock acq fn).2 = [.acquired, .ran, .released] := by
  subst h
  match fn with
  | .ok a => exact ⟨rfl, rfl⟩
  | .error e => exact ⟨rfl, rfl⟩

/-- Witness for C9: a throwing `fn` still produces the full
acquire–run–release trace and its error is passed through. -/
theorem withLock_scoped_witness :
    (withLock (ε := Nat) (α := Nat) (.ok ()) (.error 3)).1 = .error 3
  ∧ (withLock (ε := Nat) (α := Nat) (.ok ()) (.error 3)).2
      = [.acquired, .ran, .released] :=
  withLock_scoped (.ok ()) (.error 3) rfl

end Chvm
